import Mathlib

/-!
Verification of the two core text transforms of `.github/scripts/review.py`:
the diff-splitting loop of `CodeReviewer.get_pr_diff` and the comment
extractor `CodeReviewer._parse_review_comments`.

Modelling conventions:
* Python strings are `List Char`; `text.split('\n')` is `splitLines`,
  `'\n'.join(lines)` is `joinLines`.
* Fallible operations are `Option`-valued: `none` stands for an uncaught
  Python exception (`AttributeError` from `.group(1)` on a failed
  `re.search`, `IndexError` from `line.split(':', 1)[1]`).
* `str.strip()` is modelled on ASCII whitespace.
-/

namespace Review

/-- Helper for `splitLines`: prepend a character to the first line of an
already-split tail. -/
def splitLinesCons (c : Char) : List (List Char) → List (List Char)
  | [] => [[c]]
  | l :: ls => (c :: l) :: ls

/-- Python `text.split('\n')`: the empty string splits to `[""]`, and every
`'\n'` separates two (possibly empty) lines. -/
def splitLines : List Char → List (List Char)
  | [] => [[]]
  | c :: cs => if c = '\n' then [] :: splitLines cs else splitLinesCons c (splitLines cs)

/-- Python `'\n'.join(lines)`. -/
def joinLines : List (List Char) → List Char
  | [] => []
  | [l] => l
  | l :: ls => l ++ '\n' :: joinLines ls

/-- One element of the list returned by `get_pr_diff`:
`{'file': current_file, 'diff': '\n'.join(current_diff)}`. -/
structure DiffFile where
  file : List Char
  diff : List Char
deriving DecidableEq

/-- Python `line.startswith('diff --git')`. -/
def isHeader (l : List Char) : Bool := ("diff --git".toList).isPrefixOf l

/-- Python `re.search(r'b/(.+)$', line)` with `.group(1)`: the capture at
the leftmost occurrence of `b/` that is followed by at least one
character, extending greedily to the end of the line; `none` when the
regex finds no match (so `.group(1)` would raise `AttributeError`). -/
def searchBPath : List Char → Option (List Char)
  | 'b' :: '/' :: c :: rest => some (c :: rest)
  | _ :: rest => searchBPath rest
  | [] => none

/-- `diff_files.append({'file': ..., 'diff': '\n'.join(current_diff)})`
guarded by `if current_file:`. -/
def closeFrag (cf : Option (List Char)) (cd : List (List Char)) (acc : List DiffFile) :
    List DiffFile :=
  match cf with
  | some f => acc ++ [⟨f, joinLines cd⟩]
  | none => acc

/-- The `for line in response.text.split('\n')` loop of `get_pr_diff`,
including the final `if current_file:` flush. State: `cf` is
`current_file`, `cd` is `current_diff`, `acc` is `diff_files`. -/
def splitGo : List (List Char) → Option (List Char) → List (List Char) → List DiffFile →
    Option (List DiffFile)
  | [], cf, cd, acc => some (closeFrag cf cd acc)
  | l :: rest, cf, cd, acc =>
    if isHeader l then
      match searchBPath l with
      | none => none
      | some p => splitGo rest (some p) [l] (closeFrag cf cd acc)
    else
      match cf with
      | some f => splitGo rest (some f) (cd ++ [l]) acc
      | none => splitGo rest none cd acc

/-- The diff-parsing part of `get_pr_diff`, applied to `response.text`. -/
def getPrDiff (text : List Char) : Option (List DiffFile) :=
  splitGo (splitLines text) none [] []

/-- One element of the list returned by `_parse_review_comments`:
`{'file': filename, 'line': int(...), 'content': ...}`. -/
structure Comment where
  file : List Char
  line : Nat
  content : List Char
deriving DecidableEq

/-- Python `int(...)` applied to a run of decimal digits. -/
def natOfDigits (ds : List Char) : Nat :=
  ds.foldl (fun n c => n * 10 + (c.toNat - '0'.toNat)) 0

/-- The ASCII whitespace characters stripped by Python `str.strip()`. -/
def isPySpace (c : Char) : Bool :=
  c == ' ' || c == '\t' || c == '\n' || c == '\r' || c == '\x0b' || c == '\x0c'

/-- Python `s.strip()` (ASCII whitespace). -/
def pyStrip (l : List Char) : List Char :=
  ((l.dropWhile isPySpace).reverse.dropWhile isPySpace).reverse

/-- The ` (\d+):` part of the marker regex at a fixed start position:
a maximal nonempty run of digits followed immediately by `':'`. -/
def markerDigits (rest : List Char) : Option Nat :=
  if (rest.takeWhile Char.isDigit).isEmpty then none
  else if (rest.dropWhile Char.isDigit).head? = some ':' then
    some (natOfDigits (rest.takeWhile Char.isDigit))
  else none

/-- `re.search(r'(?:Line|line) (\d+):', line)` restricted to a single
start position: the position must begin with the five characters
`"Line "` or `"line "` (exactly these two capitalizations), then
`markerDigits` must accept the remainder. -/
def markerAt (l : List Char) : Option Nat :=
  if ("Line ".toList).isPrefixOf l || ("line ".toList).isPrefixOf l then
    markerDigits (l.drop 5)
  else none

/-- `int(re.search(r'(?:Line|line) (\d+):', line).group(1))` when the
search succeeds: `re.search` scans start positions left to right. -/
def findMarker : List Char → Option Nat
  | [] => none
  | c :: cs =>
    match markerAt (c :: cs) with
    | some n => some n
    | none => findMarker cs

/-- The text after the first `':'` of `l`: this is `l.split(':', 1)[1]`
when `l` contains a colon. -/
def afterFirstColon (l : List Char) : List Char :=
  (l.dropWhile (fun c => !(c == ':'))).drop 1

/-- Python `line.split(':', 1)[1]`: `none` models the `IndexError` raised
when the line contains no colon. -/
def splitColonRest (l : List Char) : Option (List Char) :=
  if ':' ∈ l then some (afterFirstColon l) else none

/-- `comments.append(current_comment)` guarded by `if current_comment:`. -/
def closeRec (cur : Option Comment) (acc : List Comment) : List Comment :=
  match cur with
  | some c => acc ++ [c]
  | none => acc

/-- The `for line in review_text.split('\n')` loop of
`_parse_review_comments`, including the final flush. State: `cur` is
`current_comment`, `acc` is `comments`. -/
def parseGo (f : List Char) : List (List Char) → Option Comment → List Comment →
    Option (List Comment)
  | [], cur, acc => some (closeRec cur acc)
  | l :: rest, cur, acc =>
    match findMarker l with
    | some n =>
      match splitColonRest l with
      | none => none
      | some r => parseGo f rest (some ⟨f, n, pyStrip r⟩) (closeRec cur acc)
    | none =>
      match cur with
      | some c =>
        if (pyStrip l).isEmpty then parseGo f rest (some c) acc
        else parseGo f rest (some ⟨c.file, c.line, c.content ++ '\n' :: pyStrip l⟩) acc
      | none => parseGo f rest none acc

/-- `_parse_review_comments(review_text, filename)`. -/
def parseReviewComments (text f : List Char) : Option (List Comment) :=
  parseGo f (splitLines text) none []

/-- A line that does not start a new diff fragment. -/
def nonHeader (l : List Char) : Bool := !(isHeader l)

/-! ## Generic list lemmas -/

theorem mem_takeWhile_pred {α : Type} (p : α → Bool) :
    ∀ (xs : List α) (a : α), a ∈ xs.takeWhile p → p a = true := by
  intro xs
  induction xs with
  | nil => intro a h; simp [List.takeWhile] at h
  | cons x xs ih =>
    intro a h
    rw [List.takeWhile_cons] at h
    cases hx : p x with
    | true =>
      rw [hx, if_pos rfl] at h
      rcases List.mem_cons.mp h with rfl | h2
      · exact hx
      · exact ih a h2
    | false => rw [hx] at h; simp at h

theorem takeWhile_all_append {α : Type} (p : α → Bool) :
    ∀ (xs : List α) (y : α) (ys : List α), (∀ a ∈ xs, p a = true) → p y = false →
      (xs ++ y :: ys).takeWhile p = xs := by
  intro xs
  induction xs with
  | nil => intro y ys _ hy; simp [List.takeWhile_cons, hy]
  | cons x xs ih =>
    intro y ys hall hy
    have hx : p x = true := hall x (List.mem_cons_self x xs)
    rw [List.cons_append, List.takeWhile_cons, hx, if_pos rfl,
      ih y ys (fun a ha => hall a (List.mem_cons_of_mem x ha)) hy]

theorem dropWhile_all_append {α : Type} (p : α → Bool) :
    ∀ (xs : List α) (y : α) (ys : List α), (∀ a ∈ xs, p a = true) → p y = false →
      (xs ++ y :: ys).dropWhile p = y :: ys := by
  intro xs
  induction xs with
  | nil => intro y ys _ hy; simp [List.dropWhile_cons, hy]
  | cons x xs ih =>
    intro y ys hall hy
    have hx : p x = true := hall x (List.mem_cons_self x xs)
    rw [List.cons_append, List.dropWhile_cons, hx, if_pos rfl,
      ih y ys (fun a ha => hall a (List.mem_cons_of_mem x ha)) hy]

theorem dropWhile_all {α : Type} (p : α → Bool) :
    ∀ (xs : List α), (∀ a ∈ xs, p a = true) → xs.dropWhile p = [] := by
  intro xs
  induction xs with
  | nil => intro; rfl
  | cons x xs ih =>
    intro hall
    have hx : p x = true := hall x (List.mem_cons_self x xs)
    rw [List.dropWhile_cons, hx, if_pos rfl,
      ih (fun a ha => hall a (List.mem_cons_of_mem x ha))]

theorem head_some_mem {α : Type} {l : List α} {a : α} (h : l.head? = some a) : a ∈ l := by
  cases l with
  | nil => simp at h
  | cons x xs =>
    simp only [List.head?] at h
    injection h with h
    rw [h]; exact List.mem_cons_self a xs

/-! ## `splitLines` / `joinLines` lemmas -/

theorem splitLines_ne_nil : ∀ s, splitLines s ≠ [] := by
  intro s
  induction s with
  | nil => simp [splitLines]
  | cons c cs ih =>
    by_cases h : c = '\n'
    · simp [splitLines, h]
    · simp only [splitLines, if_neg h]
      cases hs : splitLines cs with
      | nil => exact absurd hs ih
      | cons l ls => simp [splitLinesCons]

theorem mem_splitLines_no_newline : ∀ (s : List Char) (l : List Char),
    l ∈ splitLines s → '\n' ∉ l := by
  intro s
  induction s with
  | nil =>
    intro l h
    simp only [splitLines, List.mem_singleton] at h
    subst h; simp
  | cons c cs ih =>
    intro l h
    by_cases hc : c = '\n'
    · rw [splitLines, if_pos hc] at h
      rcases List.mem_cons.mp h with rfl | h2
      · simp
      · exact ih l h2
    · rw [splitLines, if_neg hc] at h
      cases hs : splitLines cs with
      | nil => exact absurd hs (splitLines_ne_nil cs)
      | cons m ms =>
        rw [hs, splitLinesCons] at h
        have hm : m ∈ splitLines cs := by rw [hs]; exact List.mem_cons_self m ms
        rcases List.mem_cons.mp h with rfl | h2
        · intro hmem
          rcases List.mem_cons.mp hmem with h3 | h3
          · exact hc h3.symm
          · exact ih m hm h3
        · exact ih l (by rw [hs]; exact List.mem_cons_of_mem m h2)

theorem splitLines_single : ∀ (l : List Char), '\n' ∉ l → splitLines l = [l] := by
  intro l
  induction l with
  | nil => intro; rfl
  | cons c cs ih =>
    intro h
    rw [List.mem_cons, not_or] at h
    obtain ⟨h1, h2⟩ := h
    rw [splitLines, if_neg (fun e => h1 e.symm), ih h2]
    rfl

theorem splitLines_append_newline : ∀ (a b : List Char), '\n' ∉ a →
    splitLines (a ++ '\n' :: b) = a :: splitLines b := by
  intro a
  induction a with
  | nil => intro b _; rw [List.nil_append, splitLines, if_pos rfl]
  | cons c cs ih =>
    intro b h
    rw [List.mem_cons, not_or] at h
    obtain ⟨h1, h2⟩ := h
    rw [List.cons_append, splitLines, if_neg (fun e => h1 e.symm), ih b h2]
    rfl

theorem joinLines_cons_cons (l m : List Char) (ls : List (List Char)) :
    joinLines (l :: m :: ls) = l ++ '\n' :: joinLines (m :: ls) := rfl

theorem splitLines_joinLines : ∀ (ls : List (List Char)), ls ≠ [] →
    (∀ l ∈ ls, '\n' ∉ l) → splitLines (joinLines ls) = ls := by
  intro ls
  induction ls with
  | nil => intro h _; exact absurd rfl h
  | cons a tl ih =>
    intro _ hall
    cases tl with
    | nil => exact splitLines_single a (hall a (List.mem_cons_self _ _))
    | cons m ms =>
      rw [joinLines_cons_cons, splitLines_append_newline a _ (hall a (List.mem_cons_self _ _)),
        ih (List.cons_ne_nil m ms) (fun l hl => hall l (List.mem_cons_of_mem a hl))]

theorem splitLines_joinLines_append : ∀ (ls : List (List Char)) (b : List Char), ls ≠ [] →
    (∀ l ∈ ls, '\n' ∉ l) → splitLines (joinLines ls ++ '\n' :: b) = ls ++ splitLines b := by
  intro ls
  induction ls with
  | nil => intro b h _; exact absurd rfl h
  | cons a tl ih =>
    intro b _ hall
    cases tl with
    | nil => exact splitLines_append_newline a b (hall a (List.mem_cons_self _ _))
    | cons m ms =>
      rw [joinLines_cons_cons, List.append_assoc, List.cons_append,
        splitLines_append_newline a _ (hall a (List.mem_cons_self _ _)),
        ih b (List.cons_ne_nil m ms) (fun l hl => hall l (List.mem_cons_of_mem a hl))]
      rfl

/-! ## Step lemmas for the diff-splitting loop -/

theorem splitGo_nil (cf : Option (List Char)) (cd : List (List Char)) (acc : List DiffFile) :
    splitGo [] cf cd acc = some (closeFrag cf cd acc) := rfl

theorem splitGo_cons_header {l : List Char} {p : List Char} (rest : List (List Char))
    (cf : Option (List Char)) (cd : List (List Char)) (acc : List DiffFile)
    (hh : isHeader l = true) (hp : searchBPath l = some p) :
    splitGo (l :: rest) cf cd acc = splitGo rest (some p) [l] (closeFrag cf cd acc) := by
  simp [splitGo, hh, hp]

theorem splitGo_cons_header_bad {l : List Char} (rest : List (List Char))
    (cf : Option (List Char)) (cd : List (List Char)) (acc : List DiffFile)
    (hh : isHeader l = true) (hp : searchBPath l = none) :
    splitGo (l :: rest) cf cd acc = none := by
  simp [splitGo, hh, hp]

theorem splitGo_cons_open {l : List Char} (rest : List (List Char)) (f : List Char)
    (cd : List (List Char)) (acc : List DiffFile) (hh : isHeader l = false) :
    splitGo (l :: rest) (some f) cd acc = splitGo rest (some f) (cd ++ [l]) acc := by
  simp [splitGo, hh]

theorem splitGo_cons_noopen {l : List Char} (rest : List (List Char))
    (cd : List (List Char)) (acc : List DiffFile) (hh : isHeader l = false) :
    splitGo (l :: rest) none cd acc = splitGo rest none cd acc := by
  simp [splitGo, hh]

theorem closeFrag_append (cf : Option (List Char)) (cd : List (List Char))
    (acc : List DiffFile) : closeFrag cf cd acc = acc ++ closeFrag cf cd [] := by
  cases cf <;> simp [closeFrag]

/-! ## Step lemmas for the comment-extraction loop -/

theorem markerDigits_colon {rest : List Char} {n : Nat} (h : markerDigits rest = some n) :
    ':' ∈ rest := by
  rw [markerDigits] at h
  split_ifs at h with h1 h2
  have h3 : ':' ∈ rest.takeWhile Char.isDigit ++ rest.dropWhile Char.isDigit :=
    List.mem_append_right _ (head_some_mem h2)
  rw [List.takeWhile_append_dropWhile] at h3
  exact h3

theorem markerAt_colon {l : List Char} {n : Nat} (h : markerAt l = some n) : ':' ∈ l := by
  rw [markerAt] at h
  split_ifs at h with h1
  have h2 : ':' ∈ l.drop 5 := markerDigits_colon h
  rw [← List.take_append_drop 5 l]
  exact List.mem_append_right _ h2

theorem findMarker_colon : ∀ (l : List Char) (n : Nat), findMarker l = some n → ':' ∈ l := by
  intro l
  induction l with
  | nil => intro n h; simp [findMarker] at h
  | cons c cs ih =>
    intro n h
    cases hm : markerAt (c :: cs) with
    | some m => exact markerAt_colon hm
    | none =>
      rw [findMarker, hm] at h
      exact List.mem_cons_of_mem c (ih n h)

theorem splitColonRest_pos {l : List Char} (h : ':' ∈ l) :
    splitColonRest l = some (afterFirstColon l) := by
  rw [splitColonRest, if_pos h]

theorem parseGo_nil (f : List Char) (cur : Option Comment) (acc : List Comment) :
    parseGo f [] cur acc = some (closeRec cur acc) := rfl

theorem parseGo_cons_marker {l : List Char} {n : Nat} (f : List Char)
    (rest : List (List Char)) (cur : Option Comment) (acc : List Comment)
    (hm : findMarker l = some n) :
    parseGo f (l :: rest) cur acc =
      parseGo f rest (some ⟨f, n, pyStrip (afterFirstColon l)⟩) (closeRec cur acc) := by
  simp [parseGo, hm, splitColonRest_pos (findMarker_colon l n hm)]

theorem parseGo_cons_content {l : List Char} (f : List Char) (rest : List (List Char))
    (c : Comment) (acc : List Comment) (hm : findMarker l = none)
    (hne : (pyStrip l).isEmpty = false) :
    parseGo f (l :: rest) (some c) acc =
      parseGo f rest (some ⟨c.file, c.line, c.content ++ '\n' :: pyStrip l⟩) acc := by
  simp [parseGo, hm, hne]

theorem parseGo_cons_blank {l : List Char} (f : List Char) (rest : List (List Char))
    (c : Comment) (acc : List Comment) (hm : findMarker l = none)
    (hbl : (pyStrip l).isEmpty = true) :
    parseGo f (l :: rest) (some c) acc = parseGo f rest (some c) acc := by
  simp [parseGo, hm, hbl]

theorem parseGo_cons_skip {l : List Char} (f : List Char) (rest : List (List Char))
    (acc : List Comment) (hm : findMarker l = none) :
    parseGo f (l :: rest) none acc = parseGo f rest none acc := by
  simp [parseGo, hm]

/-! ## Structure of the diff-splitting loop -/

theorem splitGo_acc : ∀ (lines : List (List Char)) (cf : Option (List Char))
    (cd : List (List Char)) (acc : List DiffFile),
    splitGo lines cf cd acc = (splitGo lines cf cd []).map (fun fs => acc ++ fs) := by
  intro lines
  induction lines with
  | nil =>
    intro cf cd acc
    rw [splitGo_nil, splitGo_nil]
    simp only [Option.map_some']
    rw [closeFrag_append cf cd acc]
  | cons l rest ih =>
    intro cf cd acc
    cases hh : isHeader l with
    | true =>
      cases hp : searchBPath l with
      | none =>
        rw [splitGo_cons_header_bad rest cf cd acc hh hp,
          splitGo_cons_header_bad rest cf cd [] hh hp]
        rfl
      | some p =>
        rw [splitGo_cons_header rest cf cd acc hh hp, splitGo_cons_header rest cf cd [] hh hp,
          ih (some p) [l] (closeFrag cf cd acc), ih (some p) [l] (closeFrag cf cd [])]
        cases hA : splitGo rest (some p) [l] [] with
        | none => rfl
        | some fs =>
          simp only [Option.map_some']
          rw [closeFrag_append cf cd acc, List.append_assoc]
    | false =>
      cases cf with
      | some f =>
        rw [splitGo_cons_open rest f cd acc hh, splitGo_cons_open rest f cd [] hh,
          ih (some f) (cd ++ [l]) acc]
      | none =>
        rw [splitGo_cons_noopen rest cd acc hh, splitGo_cons_noopen rest cd [] hh,
          ih none cd acc]

theorem splitGo_open_span : ∀ (lines : List (List Char)) (f : List Char)
    (cd : List (List Char)) (acc : List DiffFile),
    splitGo lines (some f) cd acc =
      (splitGo (lines.dropWhile nonHeader) none [] []).map
        (fun fs => acc ++ ⟨f, joinLines (cd ++ lines.takeWhile nonHeader)⟩ :: fs) := by
  intro lines
  induction lines with
  | nil =>
    intro f cd acc
    simp [splitGo_nil, closeFrag]
  | cons l rest ih =>
    intro f cd acc
    cases hh : isHeader l with
    | true =>
      have hnh : nonHeader l = false := by simp [nonHeader, hh]
      rw [List.dropWhile_cons, List.takeWhile_cons, hnh]
      simp only [Bool.false_eq_true, if_false]
      cases hp : searchBPath l with
      | none =>
        rw [splitGo_cons_header_bad rest (some f) cd acc hh hp,
          splitGo_cons_header_bad rest none [] [] hh hp]
        rfl
      | some p =>
        rw [splitGo_cons_header rest (some f) cd acc hh hp,
          splitGo_cons_header rest none [] [] hh hp]
        rw [splitGo_acc rest (some p) [l] (closeFrag (some f) cd acc),
          splitGo_acc rest (some p) [l] (closeFrag none [] [])]
        cases hA : splitGo rest (some p) [l] [] with
        | none => rfl
        | some fs =>
          simp [closeFrag, List.append_assoc]
    | false =>
      have hnh : nonHeader l = true := by simp [nonHeader, hh]
      rw [List.dropWhile_cons, List.takeWhile_cons, hnh]
      simp only [if_true]
      cases hp : searchBPath l
      all_goals {
        rw [splitGo_cons_open rest f cd acc hh, ih f (cd ++ [l]) acc]
        rw [List.append_assoc]
        rfl
      }

theorem splitGo_skip : ∀ (junk rest : List (List Char)) (cd : List (List Char))
    (acc : List DiffFile), (∀ l ∈ junk, isHeader l = false) →
    splitGo (junk ++ rest) none cd acc = splitGo rest none cd acc := by
  intro junk
  induction junk with
  | nil => intro rest cd acc _; rfl
  | cons l junk ih =>
    intro rest cd acc hall
    rw [List.cons_append,
      splitGo_cons_noopen (junk ++ rest) cd acc (hall l (List.mem_cons_self l junk)),
      ih rest cd acc (fun m hm => hall m (List.mem_cons_of_mem l hm))]

theorem splitGo_body : ∀ (body rest : List (List Char)) (f : List Char)
    (cd : List (List Char)) (acc : List DiffFile), (∀ l ∈ body, isHeader l = false) →
    splitGo (body ++ rest) (some f) cd acc = splitGo rest (some f) (cd ++ body) acc := by
  intro body
  induction body with
  | nil => intro rest f cd acc _; rw [List.nil_append, List.append_nil]
  | cons l body ih =>
    intro rest f cd acc hall
    rw [List.cons_append,
      splitGo_cons_open (body ++ rest) f cd acc (hall l (List.mem_cons_self l body)),
      ih rest f (cd ++ [l]) acc (fun m hm => hall m (List.mem_cons_of_mem l hm))]
    simp

theorem splitGo_isSome_iff : ∀ (lines : List (List Char)) (cf : Option (List Char))
    (cd : List (List Char)) (acc : List DiffFile),
    (splitGo lines cf cd acc).isSome = true ↔
      ∀ l ∈ lines, isHeader l = true → (searchBPath l).isSome = true := by
  intro lines
  induction lines with
  | nil => intro cf cd acc; simp [splitGo_nil]
  | cons l rest ih =>
    intro cf cd acc
    cases hh : isHeader l with
    | true =>
      cases hp : searchBPath l with
      | none =>
        rw [splitGo_cons_header_bad rest cf cd acc hh hp]
        simp [List.forall_mem_cons, hh, hp]
      | some p =>
        rw [splitGo_cons_header rest cf cd acc hh hp,
          ih (some p) [l] (closeFrag cf cd acc)]
        simp [List.forall_mem_cons, hh, hp]
    | false =>
      cases cf with
      | some f =>
        rw [splitGo_cons_open rest f cd acc hh, ih (some f) (cd ++ [l]) acc]
        simp [List.forall_mem_cons, hh]
      | none =>
        rw [splitGo_cons_noopen rest cd acc hh, ih none cd acc]
        simp [List.forall_mem_cons, hh]

theorem splitGo_decomp : ∀ (lines : List (List Char)) (fr : DiffFile) (fs' : List DiffFile),
    splitGo lines none [] [] = some (fr :: fs') →
    ∃ junk hd pre rest2 p,
      lines = junk ++ hd :: (pre ++ rest2) ∧
      isHeader hd = true ∧ searchBPath hd = some p ∧
      (∀ l ∈ pre, isHeader l = false) ∧
      fr = ⟨p, joinLines (hd :: pre)⟩ ∧
      splitGo rest2 none [] [] = some fs' := by
  intro lines
  induction lines with
  | nil =>
    intro fr fs' h
    rw [splitGo_nil] at h
    simp [closeFrag] at h
  | cons l rest ih =>
    intro fr fs' h
    cases hh : isHeader l with
    | true =>
      cases hp : searchBPath l with
      | none =>
        rw [splitGo_cons_header_bad rest none [] [] hh hp] at h
        exact absurd h (by simp)
      | some p =>
        rw [splitGo_cons_header rest none [] [] hh hp,
          splitGo_open_span rest p [l] (closeFrag none [] [])] at h
        cases hA : splitGo (rest.dropWhile nonHeader) none [] [] with
        | none => rw [hA] at h; exact absurd h (by simp)
        | some fs0 =>
          rw [hA] at h
          simp only [Option.map_some', closeFrag, List.nil_append, Option.some.injEq,
            List.cons.injEq] at h
          obtain ⟨hfr, hfs0⟩ := h
          refine ⟨[], l, rest.takeWhile nonHeader, rest.dropWhile nonHeader, p, ?_, hh, hp,
            ?_, ?_, ?_⟩
          · rw [List.nil_append, List.takeWhile_append_dropWhile]
          · intro m hm
            have hm2 := mem_takeWhile_pred nonHeader rest m hm
            simpa [nonHeader] using hm2
          · rw [← hfr]; simp
          · rw [hA, hfs0]
    | false =>
      rw [splitGo_cons_noopen rest [] [] hh] at h
      obtain ⟨junk, hd, pre, rest2, p, heq, h1, h2, h3, h4, h5⟩ := ih fr fs' h
      exact ⟨l :: junk, hd, pre, rest2, p, by rw [heq]; rfl, h1, h2, h3, h4, h5⟩

theorem roundtrip_aux : ∀ (fs : List DiffFile) (lines : List (List Char)),
    (∀ l ∈ lines, '\n' ∉ l) → splitGo lines none [] [] = some fs →
    splitGo (splitLines (joinLines (fs.map DiffFile.diff))) none [] [] = some fs ∧
    (fs ≠ [] → ∃ h3 t3, splitLines (joinLines (fs.map DiffFile.diff)) = h3 :: t3 ∧
      isHeader h3 = true) := by
  intro fs
  induction fs with
  | nil =>
    intro lines _ _
    exact ⟨rfl, fun hne => absurd rfl hne⟩
  | cons fr fs' ih =>
    intro lines hnl h
    obtain ⟨junk, hd, pre, rest2, p, heq, hhd, hp, hpre, hfr, hrest2⟩ :=
      splitGo_decomp lines fr fs' h
    have hhdnl : '\n' ∉ hd := hnl hd (by
      rw [heq]; exact List.mem_append_right _ (List.mem_cons_self _ _))
    have hprenl : ∀ l ∈ pre, '\n' ∉ l := fun l hl => hnl l (by
      rw [heq]
      exact List.mem_append_right _ (List.mem_cons_of_mem _ (List.mem_append_left _ hl)))
    have hnl2 : ∀ l ∈ rest2, '\n' ∉ l := fun l hl => hnl l (by
      rw [heq]
      exact List.mem_append_right _ (List.mem_cons_of_mem _ (List.mem_append_right _ hl)))
    have hbody : ∀ l ∈ hd :: pre, '\n' ∉ l := by
      intro l hl
      rcases List.mem_cons.mp hl with rfl | hl2
      · exact hhdnl
      · exact hprenl l hl2
    obtain ⟨ihA, ihB⟩ := ih rest2 hnl2 hrest2
    rcases fs' with _ | ⟨fr2, fs''⟩
    · have hsplit : splitLines (joinLines ([fr].map DiffFile.diff)) = hd :: pre := by
        show splitLines fr.diff = hd :: pre
        rw [hfr]
        exact splitLines_joinLines (hd :: pre) (List.cons_ne_nil hd pre) hbody
      constructor
      · rw [hsplit, splitGo_cons_header pre none [] [] hhd hp]
        have hb := splitGo_body pre [] p [hd] (closeFrag none [] []) hpre
        rw [List.append_nil] at hb
        rw [hb, splitGo_nil]
        simp [closeFrag, hfr]
      · intro _
        exact ⟨hd, pre, hsplit, hhd⟩
    · have hjoin : joinLines ((fr :: fr2 :: fs'').map DiffFile.diff) =
          fr.diff ++ '\n' :: joinLines ((fr2 :: fs'').map DiffFile.diff) := by
        simp only [List.map_cons]
        rfl
      obtain ⟨h3, t3, hrest3, hh3⟩ := ihB (List.cons_ne_nil fr2 fs'')
      have hsplit2 : splitLines (joinLines ((fr :: fr2 :: fs'').map DiffFile.diff)) =
          (hd :: pre) ++ splitLines (joinLines ((fr2 :: fs'').map DiffFile.diff)) := by
        rw [hjoin, hfr]
        exact splitLines_joinLines_append (hd :: pre) _ (List.cons_ne_nil hd pre) hbody
      rw [hrest3] at ihA
      rw [hsplit2, hrest3]
      constructor
      · rw [List.cons_append, splitGo_cons_header _ none [] [] hhd hp,
          splitGo_body pre (h3 :: t3) p [hd] _ hpre]
        cases hp3 : searchBPath h3 with
        | none =>
          rw [splitGo_cons_header_bad t3 none [] [] hh3 hp3] at ihA
          exact absurd ihA (by simp)
        | some p3 =>
          rw [splitGo_cons_header t3 (some p) ([hd] ++ pre) (closeFrag none [] []) hh3 hp3]
          rw [splitGo_cons_header t3 none [] [] hh3 hp3] at ihA
          rw [splitGo_acc t3 (some p3) [h3] (closeFrag none [] [])] at ihA
          rw [splitGo_acc t3 (some p3) [h3]
            (closeFrag (some p) ([hd] ++ pre) (closeFrag none [] []))]
          cases hB : splitGo t3 (some p3) [h3] [] with
          | none => rw [hB] at ihA; exact absurd ihA (by simp)
          | some fs0 =>
            rw [hB] at ihA
            simp only [Option.map_some', closeFrag, List.nil_append, List.singleton_append,
              Option.some.injEq] at ihA ⊢
            rw [ihA, hfr]
      · intro _
        exact ⟨hd, pre ++ h3 :: t3, rfl, hhd⟩

/-! ## Structure of the comment-extraction loop -/

theorem parseGo_total : ∀ (lines : List (List Char)) (f : List Char) (cur : Option Comment)
    (acc : List Comment), (parseGo f lines cur acc).isSome = true := by
  intro lines
  induction lines with
  | nil => intro f cur acc; rw [parseGo_nil]; rfl
  | cons l rest ih =>
    intro f cur acc
    cases hm : findMarker l with
    | some n => rw [parseGo_cons_marker f rest cur acc hm]; exact ih f _ _
    | none =>
      cases cur with
      | none => rw [parseGo_cons_skip f rest acc hm]; exact ih f none acc
      | some c =>
        cases hbl : (pyStrip l).isEmpty with
        | true => rw [parseGo_cons_blank f rest c acc hm hbl]; exact ih f (some c) acc
        | false => rw [parseGo_cons_content f rest c acc hm hbl]; exact ih f _ acc

theorem parseGo_marker_src (f : List Char) : ∀ (lines L : List (List Char))
    (cur : Option Comment) (acc out : List Comment),
    (∀ l ∈ lines, l ∈ L) →
    (∀ c, cur = some c → ∃ l ∈ L, findMarker l = some c.line) →
    (∀ c ∈ acc, ∃ l ∈ L, findMarker l = some c.line) →
    parseGo f lines cur acc = some out →
    ∀ c ∈ out, ∃ l ∈ L, findMarker l = some c.line := by
  intro lines
  induction lines with
  | nil =>
    intro L cur acc out _ hcur hacc h c hc
    rw [parseGo_nil] at h
    injection h with h
    rw [← h] at hc
    cases cur with
    | none => exact hacc c hc
    | some c0 =>
      simp only [closeRec] at hc
      rcases List.mem_append.mp hc with hc1 | hc2
      · exact hacc c hc1
      · rw [List.mem_singleton] at hc2
        rw [hc2]
        exact hcur c0 rfl
  | cons l rest ih =>
    intro L cur acc out hsub hcur hacc h
    have hlL : l ∈ L := hsub l (List.mem_cons_self l rest)
    have hsub2 : ∀ m ∈ rest, m ∈ L := fun m hm => hsub m (List.mem_cons_of_mem l hm)
    cases hm : findMarker l with
    | some n =>
      rw [parseGo_cons_marker f rest cur acc hm] at h
      refine ih L _ _ out hsub2 ?_ ?_ h
      · intro c hc
        injection hc with hc
        rw [← hc]
        exact ⟨l, hlL, hm⟩
      · intro c hc
        cases cur with
        | none => exact hacc c hc
        | some c0 =>
          simp only [closeRec] at hc
          rcases List.mem_append.mp hc with hc1 | hc2
          · exact hacc c hc1
          · rw [List.mem_singleton] at hc2
            rw [hc2]
            exact hcur c0 rfl
    | none =>
      cases cur with
      | none =>
        rw [parseGo_cons_skip f rest acc hm] at h
        exact ih L none acc out hsub2 hcur hacc h
      | some c0 =>
        cases hbl : (pyStrip l).isEmpty with
        | true =>
          rw [parseGo_cons_blank f rest c0 acc hm hbl] at h
          exact ih L (some c0) acc out hsub2 hcur hacc h
        | false =>
          rw [parseGo_cons_content f rest c0 acc hm hbl] at h
          refine ih L _ acc out hsub2 ?_ hacc h
          intro c hc
          injection hc with hc
          rw [← hc]
          exact hcur c0 rfl

/-! ## Characterization of the marker pattern -/

theorem isPrefixOf_eq_append : ∀ (p l : List Char), p.isPrefixOf l = true →
    l = p ++ l.drop p.length := by
  intro p
  induction p with
  | nil => intro l _; rfl
  | cons a p ih =>
    intro l h
    cases l with
    | nil => simp [List.isPrefixOf] at h
    | cons b l =>
      simp only [List.isPrefixOf, Bool.and_eq_true, beq_iff_eq] at h
      obtain ⟨h1, h2⟩ := h
      rw [← h1, List.length_cons, List.cons_append, List.drop_succ_cons, ← ih l h2]

theorem isPrefixOf_append_self : ∀ (p t : List Char), p.isPrefixOf (p ++ t) = true := by
  intro p
  induction p with
  | nil => intro t; simp [List.isPrefixOf]
  | cons a p ih => intro t; simp [List.isPrefixOf, ih]

theorem markerDigits_some_elim {rest : List Char} {n : Nat} (h : markerDigits rest = some n) :
    ∃ ds v, ds ≠ [] ∧ (∀ c ∈ ds, c.isDigit = true) ∧ rest = ds ++ ':' :: v ∧
      n = natOfDigits ds := by
  rw [markerDigits] at h
  split_ifs at h with h1 h2
  injection h with h
  refine ⟨rest.takeWhile Char.isDigit, (rest.dropWhile Char.isDigit).tail, ?_, ?_, ?_, h.symm⟩
  · intro he
    rw [he] at h1
    exact h1 rfl
  · intro c hc
    exact mem_takeWhile_pred Char.isDigit rest c hc
  · have h3 : rest.dropWhile Char.isDigit = ':' :: (rest.dropWhile Char.isDigit).tail := by
      cases hdw : rest.dropWhile Char.isDigit with
      | nil => rw [hdw] at h2; simp at h2
      | cons a t =>
        rw [hdw] at h2
        simp only [List.head?] at h2
        injection h2 with h2
        rw [h2]
        rfl
    conv_lhs => rw [← @List.takeWhile_append_dropWhile _ Char.isDigit rest, h3]

theorem markerDigits_intro (ds v : List Char) (hds : ds ≠ [])
    (hdig : ∀ c ∈ ds, c.isDigit = true) :
    markerDigits (ds ++ ':' :: v) = some (natOfDigits ds) := by
  have htw : (ds ++ ':' :: v).takeWhile Char.isDigit = ds :=
    takeWhile_all_append Char.isDigit ds ':' v hdig (by decide)
  have hdw : (ds ++ ':' :: v).dropWhile Char.isDigit = ':' :: v :=
    dropWhile_all_append Char.isDigit ds ':' v hdig (by decide)
  have hie : ds.isEmpty = false := by
    cases ds with
    | nil => exact absurd rfl hds
    | cons a t => rfl
  rw [markerDigits, htw, hdw, hie]
  simp

theorem markerAt_intro (w rest : List Char) (hw : w = "Line ".toList ∨ w = "line ".toList) :
    markerAt (w ++ rest) = markerDigits rest := by
  have hlen : w.length = 5 := by rcases hw with rfl | rfl <;> rfl
  have hcond : (("Line ".toList).isPrefixOf (w ++ rest) ||
      ("line ".toList).isPrefixOf (w ++ rest)) = true := by
    rcases hw with rfl | rfl
    · rw [isPrefixOf_append_self, Bool.true_or]
    · rw [isPrefixOf_append_self, Bool.or_true]
  rw [markerAt, if_pos hcond, List.drop_left' hlen]

theorem markerAt_some_elim {l : List Char} {n : Nat} (h : markerAt l = some n) :
    ∃ rest, (l = "Line ".toList ++ rest ∨ l = "line ".toList ++ rest) ∧
      markerDigits rest = some n := by
  rw [markerAt] at h
  split_ifs at h with hcond
  rw [Bool.or_eq_true] at hcond
  rcases hcond with h1 | h1
  · exact ⟨l.drop 5, Or.inl (isPrefixOf_eq_append ("Line ".toList) l h1), h⟩
  · exact ⟨l.drop 5, Or.inr (isPrefixOf_eq_append ("line ".toList) l h1), h⟩

theorem findMarker_head (l : List Char) (n : Nat) (hma : markerAt l = some n) :
    findMarker l = some n := by
  cases l with
  | nil =>
    rw [markerAt] at hma
    split_ifs at hma with hc
    rw [markerDigits] at hma
    simp [List.takeWhile] at hma
  | cons c cs => rw [findMarker, hma]

theorem findMarker_isSome_append : ∀ (u l : List Char), (findMarker l).isSome = true →
    (findMarker (u ++ l)).isSome = true := by
  intro u
  induction u with
  | nil => intro l h; exact h
  | cons c u ih =>
    intro l h
    rw [List.cons_append, findMarker]
    cases hm : markerAt (c :: (u ++ l)) with
    | some m => rfl
    | none => exact ih l h

theorem findMarker_some_elim : ∀ (l : List Char) (n : Nat), findMarker l = some n →
    ∃ u rest, l = u ++ rest ∧ markerAt rest = some n := by
  intro l
  induction l with
  | nil => intro n h; simp [findMarker] at h
  | cons c cs ih =>
    intro n h
    cases hm : markerAt (c :: cs) with
    | some m =>
      rw [findMarker, hm] at h
      have hmn : m = n := by injection h
      exact ⟨[], c :: cs, rfl, by rw [hm, hmn]⟩
    | none =>
      rw [findMarker, hm] at h
      obtain ⟨u, rest, hur, hma⟩ := ih n h
      exact ⟨c :: u, rest, by rw [List.cons_append, ← hur], hma⟩

/-! ## Claims -/

/-- C1, counterexample: the diff splitter is not total. On the input
consisting of the single line `diff --git` (which starts with
`diff --git` but has no `b/<path>` segment), `re.search(r'b/(.+)$', line)`
returns `None` and `.group(1)` raises `AttributeError`, modelled here as
`none`. -/
theorem c1_splitter_raises : getPrDiff ("diff --git".toList) = none := rfl

/-- C1, amended: the comment extractor is total (it returns a result for
every transcript and file string), and the diff splitter returns a result
exactly when every line starting with `diff --git` contains a `b/`
followed by at least one character; a header line lacking such a segment
makes the splitter fail. -/
theorem c1_total_amended :
    (∀ text f : List Char, (parseReviewComments text f).isSome = true) ∧
    (∀ text : List Char, (getPrDiff text).isSome = true ↔
      ∀ l ∈ splitLines text, isHeader l = true → (searchBPath l).isSome = true) :=
  ⟨fun text f => parseGo_total (splitLines text) f none [],
   fun text => splitGo_isSome_iff (splitLines text) none [] []⟩

/-- C1, witness: both parts of the amended claim at concrete inputs. -/
theorem c1_total_witness :
    (parseReviewComments ("hello".toList) ("f".toList)).isSome = true ∧
    (getPrDiff ("diff --git a/x b/x".toList)).isSome = true :=
  ⟨c1_total_amended.1 ("hello".toList) ("f".toList),
   (c1_total_amended.2 ("diff --git a/x b/x".toList)).mpr (by decide)⟩

/-- C2: evaluating the splitter at the failing input. For the header line
`diff --git a/lib/x b/lib/x` the code records the path `x b/lib/x` — the
regex `b/(.+)$` matches at the leftmost `b/`, which sits inside the
pre-change path `a/lib/x` — instead of the post-change path `lib/x`
required by the claim. -/
theorem c2_header_path_eval : getPrDiff ("diff --git a/lib/x b/lib/x".toList) =
    some [⟨"x b/lib/x".toList, "diff --git a/lib/x b/lib/x".toList⟩] := rfl

/-- C3, counterexample: the marker pattern is not matched
case-insensitively. The transcript line `LINE 7: msg` produces no record,
although the claim says it starts one. -/
theorem c3_case_counterexample :
    parseReviewComments ("LINE 7: msg".toList) ("f".toList) = some [] := rfl

/-- C3, amended: a transcript line is a marker line if and only if the
exact substring `Line <digits>:` or `line <digits>:` (only these two
capitalizations, with a single space before the digits) occurs anywhere
in the line. -/
theorem c3_marker_charac (l : List Char) :
    (findMarker l).isSome = true ↔
      ∃ u ds v, ds ≠ [] ∧ (∀ c ∈ ds, c.isDigit = true) ∧
        (l = u ++ "Line ".toList ++ (ds ++ ':' :: v) ∨
         l = u ++ "line ".toList ++ (ds ++ ':' :: v)) := by
  constructor
  · intro h
    obtain ⟨n, hn⟩ := Option.isSome_iff_exists.mp h
    obtain ⟨u, rest, hlu, hma⟩ := findMarker_some_elim l n hn
    obtain ⟨rest2, hw, hmd⟩ := markerAt_some_elim hma
    obtain ⟨ds, v, hds, hdig, hrest2, _⟩ := markerDigits_some_elim hmd
    rcases hw with hw | hw
    · exact ⟨u, ds, v, hds, hdig, Or.inl (by rw [hlu, hw, hrest2, List.append_assoc])⟩
    · exact ⟨u, ds, v, hds, hdig, Or.inr (by rw [hlu, hw, hrest2, List.append_assoc])⟩
  · rintro ⟨u, ds, v, hds, hdig, hl | hl⟩
    · rw [hl, List.append_assoc]
      apply findMarker_isSome_append
      have hma : markerAt ("Line ".toList ++ (ds ++ ':' :: v)) = some (natOfDigits ds) := by
        rw [markerAt_intro ("Line ".toList) _ (Or.inl rfl)]
        exact markerDigits_intro ds v hds hdig
      rw [findMarker_head _ _ hma]
      rfl
    · rw [hl, List.append_assoc]
      apply findMarker_isSome_append
      have hma : markerAt ("line ".toList ++ (ds ++ ':' :: v)) = some (natOfDigits ds) := by
        rw [markerAt_intro ("line ".toList) _ (Or.inr rfl)]
        exact markerDigits_intro ds v hds hdig
      rw [findMarker_head _ _ hma]
      rfl

/-- C3, witness: `see line 12: x` is a marker line by the amended
characterization. -/
theorem c3_marker_witness : (findMarker ("see line 12: x".toList)).isSome = true :=
  (c3_marker_charac ("see line 12: x".toList)).mpr
    ⟨"see ".toList, ['1', '2'], " x".toList, by decide, by decide, Or.inr (by decide)⟩

/-- C4, counterexample: a record with line number 0 is constructible. The
transcript `Line 0: x` yields exactly the record with `line = 0`, so the
line field is not always strictly positive. -/
theorem c4_zero_counterexample :
    parseReviewComments ("Line 0: x".toList) ("f".toList) =
      some [⟨"f".toList, 0, "x".toList⟩] := rfl

/-- C4, amended: every emitted record's line number is the nonnegative
integer parsed from the digits of a marker occurring on some transcript
line (digit runs always parse, so no record is ever dropped for an
unparsable marker, and no record exists without a marker line); strict
positivity fails because `Line 0:` is accepted. -/
theorem c4_line_provenance (text f : List Char) (out : List Comment)
    (h : parseReviewComments text f = some out) :
    ∀ c ∈ out, ∃ l ∈ splitLines text, findMarker l = some c.line :=
  parseGo_marker_src f (splitLines text) (splitLines text) none [] out
    (fun _ hl => hl) (fun _ hc => nomatch hc) (fun c0 hc0 => absurd hc0 (List.not_mem_nil c0))
    h

/-- C4, witness: the provenance theorem applied to the `Line 0: x`
transcript. -/
theorem c4_provenance_witness :
    ∃ l ∈ splitLines ("Line 0: x".toList), findMarker l = some 0 :=
  c4_line_provenance ("Line 0: x".toList) ("f".toList) [⟨"f".toList, 0, "x".toList⟩]
    (by decide) ⟨"f".toList, 0, "x".toList⟩ (by decide)

/-- C5, counterexample: the content of a new record is cut at the first
colon of the whole line, not at the colon following the marker. For
`Note: Line 5: fix it` the recorded content is `Line 5: fix it`, not
`fix it` as the claim states. -/
theorem c5_colon_counterexample :
    parseReviewComments ("Note: Line 5: fix it".toList) ("f".toList) =
      some [⟨"f".toList, 5, "Line 5: fix it".toList⟩] := rfl

/-- C5, amended: when a single-line transcript matches the marker
pattern, the produced record's line is the parsed marker number and its
content is the remainder of the line after the first colon of the whole
line, stripped of surrounding whitespace. -/
theorem c5_first_colon_content (l f : List Char) (n : Nat) (hnl : '\n' ∉ l)
    (hm : findMarker l = some n) :
    parseReviewComments l f = some [⟨f, n, pyStrip (afterFirstColon l)⟩] := by
  unfold parseReviewComments
  rw [splitLines_single l hnl, parseGo_cons_marker f [] none [] hm, parseGo_nil]
  rfl

/-- C5, witness: the amended content rule at the line `Line 2: ok`. -/
theorem c5_content_witness :
    parseReviewComments ("Line 2: ok".toList) ("f".toList) =
      some [⟨"f".toList, 2, pyStrip (afterFirstColon ("Line 2: ok".toList))⟩] :=
  c5_first_colon_content ("Line 2: ok".toList) ("f".toList) 2 (by decide) (by decide)

/-- C6: for the transcript `Line 5: issue A\nmore on A\nLine 12: issue B`
and any file string, extraction yields exactly the two records
`(5, "issue A\nmore on A")` and `(12, "issue B")`, in that order. -/
theorem c6_marker_boundary (f : List Char) :
    parseReviewComments ("Line 5: issue A\nmore on A\nLine 12: issue B".toList) f =
      some [⟨f, 5, "issue A\nmore on A".toList⟩, ⟨f, 12, "issue B".toList⟩] := rfl

/-- C7: round-trip. Whenever the splitter succeeds, re-splitting the
newline-joined concatenation of the emitted fragment bodies reproduces
exactly the same fragment sequence (same paths, same bodies, same
order). -/
theorem c7_roundtrip (text : List Char) (fs : List DiffFile)
    (h : getPrDiff text = some fs) :
    getPrDiff (joinLines (fs.map DiffFile.diff)) = some fs :=
  (roundtrip_aux fs (splitLines text) (mem_splitLines_no_newline text) h).1

/-- C7, witness: the round-trip theorem applied to a concrete two-file
diff. -/
theorem c7_roundtrip_witness :
    getPrDiff (joinLines (([⟨"x".toList, "diff --git a/x b/x\n+1".toList⟩,
        ⟨"y".toList, "diff --git a/y b/y\n-2".toList⟩] : List DiffFile).map
        DiffFile.diff)) =
      some [⟨"x".toList, "diff --git a/x b/x\n+1".toList⟩,
        ⟨"y".toList, "diff --git a/y b/y\n-2".toList⟩] :=
  c7_roundtrip ("diff --git a/x b/x\n+1\ndiff --git a/y b/y\n-2".toList) _ (by decide)

/-- C8: order preservation. For any input whose lines are leading
non-header junk, then three header lines `h1, h2, h3` (with extracted
paths `F1, F2, F3`) each followed by its non-header body lines, the
splitter's output is exactly the three fragments in header order, each
body being the header line followed by the lines up to the next
header. -/
theorem c8_order_preservation (text : List Char) (junk b1 b2 b3 : List (List Char))
    (h1 h2 h3 F1 F2 F3 : List Char)
    (hsplit : splitLines text = junk ++ h1 :: (b1 ++ h2 :: (b2 ++ h3 :: b3)))
    (hjunk : ∀ l ∈ junk, isHeader l = false)
    (hb1 : ∀ l ∈ b1, isHeader l = false)
    (hb2 : ∀ l ∈ b2, isHeader l = false)
    (hb3 : ∀ l ∈ b3, isHeader l = false)
    (hh1 : isHeader h1 = true) (hh2 : isHeader h2 = true) (hh3 : isHeader h3 = true)
    (hp1 : searchBPath h1 = some F1) (hp2 : searchBPath h2 = some F2)
    (hp3 : searchBPath h3 = some F3) :
    getPrDiff text = some [⟨F1, joinLines (h1 :: b1)⟩, ⟨F2, joinLines (h2 :: b2)⟩,
      ⟨F3, joinLines (h3 :: b3)⟩] := by
  unfold getPrDiff
  rw [hsplit, splitGo_skip junk _ [] [] hjunk,
    splitGo_cons_header _ none [] [] hh1 hp1,
    splitGo_body b1 _ F1 [h1] _ hb1,
    splitGo_cons_header _ (some F1) ([h1] ++ b1) _ hh2 hp2,
    splitGo_body b2 _ F2 [h2] _ hb2,
    splitGo_cons_header _ (some F2) ([h2] ++ b2) _ hh3 hp3]
  have hb := splitGo_body b3 [] F3 [h3]
    (closeFrag (some F2) ([h2] ++ b2) (closeFrag (some F1) ([h1] ++ b1) (closeFrag none [] [])))
    hb3
  rw [List.append_nil] at hb
  rw [hb, splitGo_nil]
  simp [closeFrag]

/-- C8, witness: the order-preservation theorem applied to a concrete
three-file diff with a preamble line. -/
theorem c8_order_witness :
    getPrDiff (("preamble\ndiff --git a/f1 b/f1\n+a\ndiff --git a/f2 b/f2\n-b\n" ++
        "diff --git a/f3 b/f3\n c").toList) =
      some [⟨"f1".toList, "diff --git a/f1 b/f1\n+a".toList⟩,
        ⟨"f2".toList, "diff --git a/f2 b/f2\n-b".toList⟩,
        ⟨"f3".toList, "diff --git a/f3 b/f3\n c".toList⟩] :=
  c8_order_preservation _ ["preamble".toList] ["+a".toList] ["-b".toList] [" c".toList]
    ("diff --git a/f1 b/f1".toList) ("diff --git a/f2 b/f2".toList)
    ("diff --git a/f3 b/f3".toList) ("f1".toList) ("f2".toList) ("f3".toList)
    (by decide) (by decide) (by decide) (by decide) (by decide)
    (by decide) (by decide) (by decide) (by decide) (by decide) (by decide)

/-- C9: a `Line`/`line` word separated from the digits by anything other
than exactly one space (no space, two spaces, a tab) does not form a
marker: such lines start no record — they are dropped when no record is
open and appended as ordinary content when one is. -/
theorem c9_strict_separator (f : List Char) :
    findMarker ("Line5: a".toList) = none ∧
    findMarker ("Line  5: a".toList) = none ∧
    findMarker ("Line\t5: a".toList) = none ∧
    parseReviewComments ("Line5: a".toList) f = some [] ∧
    parseReviewComments ("Line  5: a".toList) f = some [] ∧
    parseReviewComments ("Line\t5: a".toList) f = some [] ∧
    parseReviewComments ("line 3: x\nLine5: a\nLine  5: b".toList) f =
      some [⟨f, 3, "x\nLine5: a\nLine  5: b".toList⟩] :=
  ⟨rfl, rfl, rfl, rfl, rfl, rfl, rfl⟩

/-- C10: a marker line with nothing or only whitespace after its colon
opens a record with empty content, and a subsequent non-blank line makes
the emitted content start with a newline character. -/
theorem c10_empty_marker_content (f ws : List Char) (hnl : '\n' ∉ ws)
    (hws : ∀ c ∈ ws, isPySpace c = true) :
    parseReviewComments ("Line 5:".toList ++ ws) f = some [⟨f, 5, []⟩] ∧
    parseReviewComments ("Line 5:".toList ++ ws ++ '\n' :: "explanation".toList) f =
      some [⟨f, 5, '\n' :: "explanation".toList⟩] := by
  have hma : markerAt ("Line 5:".toList ++ ws) = some 5 := by
    have h0 := markerAt_intro ("Line ".toList) ('5' :: ':' :: ws) (Or.inl rfl)
    exact h0
  have hm : findMarker ("Line 5:".toList ++ ws) = some 5 := findMarker_head _ _ hma
  have hafc : afterFirstColon ("Line 5:".toList ++ ws) = ws := rfl
  have hstrip : pyStrip ws = [] := by
    unfold pyStrip
    rw [dropWhile_all isPySpace ws hws]
    rfl
  have hno : '\n' ∉ "Line 5:".toList ++ ws := by
    intro hmem
    rcases List.mem_append.mp hmem with hA | hB
    · exact absurd hA (by decide)
    · exact hnl hB
  constructor
  · unfold parseReviewComments
    rw [splitLines_single _ hno, parseGo_cons_marker f [] none [] hm, parseGo_nil,
      hafc, hstrip]
    rfl
  · unfold parseReviewComments
    rw [splitLines_append_newline _ _ hno,
      splitLines_single ("explanation".toList) (by decide),
      parseGo_cons_marker f _ none [] hm, hafc, hstrip,
      parseGo_cons_content f [] ⟨f, 5, []⟩ _ (by decide) (by decide), parseGo_nil]
    rfl

/-- C10, witness: the empty-content rule at a marker line with two
trailing spaces. -/
theorem c10_empty_marker_witness :
    parseReviewComments ("Line 5:".toList ++ "  ".toList) ("f".toList) =
      some [⟨"f".toList, 5, []⟩] :=
  (c10_empty_marker_content ("f".toList) ("  ".toList) (by decide) (by decide)).1

end Review
